import Mathlib

/-!
Verification of the opportunities-forwarding bot (Rust sources:
`src/github_scraper.rs`, `src/html_walker.rs`, `src/bot.rs`).

The development shallowly embeds the program:
* `pull_from` embeds `DiscussionLink::pull_from` (regex scan, per-match
  `u16` parse, first-occurrence dedup, ascending sort by id).  The Rust
  code calls `.parse().unwrap()`, which panics on ids that do not fit in
  16 bits; a panic is modelled as `none`.
* `get_last_posted_opportunity_id`, `delete_illegal_posts`,
  `block_illegal_post`, `forward_opportunities` and `handle_channel`
  embed the methods of `Handler` in `bot.rs`.  Platform calls (delete,
  direct message, channel send, fetches) are modelled by per-message /
  per-id success oracles, and the side effects by an explicit action
  trace.
* `HtmlNode`, `nodeText`, `findForest`, `visitNode`/`html_to_md` and
  `post_pull_from` embed the `select`-crate queries of
  `DiscussionPost::pull_from` and the `MarkdownWalker` of
  `html_walker.rs`.

The character-level scanners (`scanAux`, `splitWsAux`) are written with
an explicit fuel parameter so that they are structurally recursive and
evaluate inside the kernel; the fuel is an upper bound on the number of
steps (each step consumes at least one character), so the bound is never
reached and the functions compute the same results as the unbounded
originals.
-/

set_option maxRecDepth 8192

/-- Rust `str::trim`, modelled with Lean's `Char.isWhitespace` (the
inputs appearing in this development are ASCII, where the two notions of
whitespace coincide). -/
def rustTrim (s : List Char) : List Char :=
  ((s.dropWhile Char.isWhitespace).reverse.dropWhile Char.isWhitespace).reverse

/-- `rustTrim` lifted to `String`. -/
def trimString (s : String) : String :=
  String.mk (rustTrim s.data)

/-- The literal part of `DISCUSSION_LINK_REGEX!()` in `github_scraper.rs`:
`"/" ++ DISCUSSIONS_BASE_URL`, i.e. everything before `[/]*(?P<id>\d+)`. -/
def LINK_LITERAL : List Char := "/UWAppDev/opportunities-forwarding-bot/discussions/".data

/-- Removes `p` from the front of `s`, or fails when `s` does not start
with `p`. -/
def dropLit : List Char → List Char → Option (List Char)
  | [], s => some s
  | _ :: _, [] => none
  | p :: ps, c :: cs => if p = c then dropLit ps cs else none

/-- One attempted regex match of `DISCUSSION_LINK_REGEX` at the head of
`s`: the literal, then greedily `[/]*`, then greedily `\d+` (at least
one digit; `\d` modelled as an ASCII digit).  On success returns the
full matched text (capture 0), the digits of the `id` capture, and the
remaining input after the match. -/
def matchAt (s : List Char) : Option (List Char × List Char × List Char) :=
  match dropLit LINK_LITERAL s with
  | none => none
  | some rest =>
    let slashes := rest.takeWhile (· == '/')
    let afterSlashes := rest.dropWhile (· == '/')
    let digits := afterSlashes.takeWhile Char.isDigit
    if digits.isEmpty then none
    else some (LINK_LITERAL ++ slashes ++ digits, digits, afterSlashes.drop digits.length)

/-- Leftmost, non-overlapping regex scan (`Regex::captures_iter`): try a
match at every position, and continue after the end of each match.  The
fuel bounds the number of steps; every step consumes at least one input
character, so `scanMatches` passes fuel that is never exhausted. -/
def scanAux : Nat → List Char → List (List Char × List Char)
  | 0, _ => []
  | _ + 1, [] => []
  | fuel + 1, c :: cs =>
    match matchAt (c :: cs) with
    | some (full, digits, rest) => (full, digits) :: scanAux fuel rest
    | none => scanAux fuel cs

/-- All matches of `DISCUSSION_LINK_REGEX` in `text`, in scan order. -/
def scanMatches (text : List Char) : List (List Char × List Char) :=
  scanAux text.length text

/-- Numeric value of a digit string (`msd` first). -/
def digitsToNat (ds : List Char) : Nat :=
  ds.foldl (fun acc c => acc * 10 + (c.toNat - '0'.toNat)) 0

/-- Rust `str::parse::<u16>()` on a non-empty digit string: fails
exactly when the value exceeds `u16::MAX`. -/
def parseU16 (ds : List Char) : Option Nat :=
  let n := digitsToNat ds
  if n ≤ 65535 then some n else none

/-- `DiscussionLink` from `github_scraper.rs`: the matched text
(capture 0) and the parsed id. -/
structure DiscussionLink where
  content : List Char
  id : Nat
deriving Repr, DecidableEq

/-- The `map` step of `pull_from`: parse every match's id capture into a
`u16`.  The Rust closure calls `.unwrap()` on the parse, so a single
out-of-range id panics the whole extraction; the panic is modelled as
`none`. -/
def parseAll : List (List Char × List Char) → Option (List DiscussionLink)
  | [] => some []
  | (full, ds) :: rest =>
    match parseU16 ds with
    | none => none
    | some id =>
      match parseAll rest with
      | none => none
      | some links => some (⟨full, id⟩ :: links)

/-- The `filter` step of `pull_from`: drop a link whose id is already in
`seen` (the `BTreeSet` of ids), otherwise keep it and record its id.
First occurrence wins. -/
def dedupFirst : List DiscussionLink → List Nat → List DiscussionLink
  | [], _ => []
  | l :: ls, seen =>
    if l.id ∈ seen then dedupFirst ls seen
    else l :: dedupFirst ls (l.id :: seen)

/-- Insert a link into an id-sorted list, before the first element it is
`≤`; the insertion step of a stable insertion sort, modelling the stable
`res.sort_by(|a, b| a.id.cmp(&b.id))`. -/
def sortInsert (a : DiscussionLink) : List DiscussionLink → List DiscussionLink
  | [] => [a]
  | b :: l => if a.id ≤ b.id then a :: b :: l else b :: sortInsert a l

/-- Stable sort by ascending id (Rust `sort_by` with `a.id.cmp(&b.id)`). -/
def sortById : List DiscussionLink → List DiscussionLink
  | [] => []
  | b :: l => sortInsert b (sortById l)

/-- The matches of `text` with their ids parsed, in text order (the
state of `pull_from`'s iterator just before deduplication). -/
def parsedMatches (text : List Char) : Option (List DiscussionLink) :=
  parseAll (scanMatches text)

/-- `DiscussionLink::pull_from`: scan for discussion links, parse each
id, deduplicate by id keeping the first occurrence, and sort ascending
by id.  `none` models the `unwrap` panic on an id wider than 16 bits. -/
def pull_from (text : List Char) : Option (List DiscussionLink) :=
  (parsedMatches text).map (fun ms => sortById (dedupFirst ms []))

/-- A message of a channel history, newest first, as the bot sees it
through `messages_iter`.  `isOwn` is `Message::is_own`; `deleteOk` and
`dmOk` are oracles for the outcomes of the platform calls
`Message::delete` and `User::dm` on this message. -/
structure ChannelMessage where
  isOwn : Bool
  content : List Char
  deleteOk : Bool
  dmOk : Bool
deriving Repr, DecidableEq

/-- Loop body of `Handler::get_last_posted_opportunity_id` with the
mutable `most_recent_id` as the accumulator `acc`.  A non-own message is
skipped; an own message is scanned with `pull_from`: if the extraction
panics the whole resolver panics (`none`), if it yields a first link the
loop sets `most_recent_id = max(id, acc)` and breaks, and if it yields
no link the loop continues with older messages. -/
def get_last_posted_opportunity_id_aux (acc : Nat) : List ChannelMessage → Option Nat
  | [] => some acc
  | m :: ms =>
    if m.isOwn then
      match pull_from m.content with
      | none => none
      | some links =>
        match links.head? with
        | some l => some (max l.id acc)
        | none => get_last_posted_opportunity_id_aux acc ms
    else get_last_posted_opportunity_id_aux acc ms

/-- `Handler::get_last_posted_opportunity_id`: the watermark resolver,
starting from `most_recent_id = 0`. -/
def get_last_posted_opportunity_id (hist : List ChannelMessage) : Option Nat :=
  get_last_posted_opportunity_id_aux 0 hist

/-- One observable platform call of a reconciliation pass.  Message
indices refer to positions in the newest-first history. -/
inductive BotAction where
  | deleteMsg (idx : Nat)
  | dmAuthor (idx : Nat)
  | fetchListing
  | fetchPost (id : Nat)
  | sendPost (id : Nat)
deriving Repr, DecidableEq

/-- `Handler::block_illegal_post` on the message at history index `i`:
attempt the deletion; when it fails return the error without sending the
direct message, otherwise attempt the direct message and propagate its
outcome.  The trace records attempted calls, successful or not. -/
def block_illegal_post (i : Nat) (m : ChannelMessage) : List BotAction × Except Unit Unit :=
  if m.deleteOk then
    if m.dmOk then ([.deleteMsg i, .dmAuthor i], .ok ())
    else ([.deleteMsg i, .dmAuthor i], .error ())
  else ([.deleteMsg i], .error ())

/-- The scan loop of `Handler::delete_illegal_posts`: walk the history
newest first, collecting messages into `target_posts` until an own
message is found (`found_own`), which is itself not collected. -/
def collectTargets : List ChannelMessage → List ChannelMessage × Bool
  | [] => ([], false)
  | m :: ms =>
    if m.isOwn then ([], true)
    else
      let (ts, f) := collectTargets ms
      (m :: ts, f)

/-- The deletion loop of `Handler::delete_illegal_posts`:
`block_illegal_post` on each collected message in order, with `?`
returning the first error and abandoning the remaining messages.  `i` is
the history index of the first collected message (the collected messages
are a contiguous newest-first run, so indices count up from 0). -/
def processTargets (i : Nat) : List ChannelMessage → List BotAction × Except Unit Unit
  | [] => ([], .ok ())
  | m :: rest =>
    let (acts, r) := block_illegal_post i m
    match r with
    | .error e => (acts, .error e)
    | .ok _ =>
      let (acts2, r2) := processTargets (i + 1) rest
      (acts ++ acts2, r2)

/-- `Handler::delete_illegal_posts`: collect the messages above the
bot's most recent own post and, only when such an own post was found,
block each collected message. -/
def delete_illegal_posts (hist : List ChannelMessage) : List BotAction × Except Unit Unit :=
  let (ts, found) := collectTargets hist
  if found then processTargets 0 ts else ([], .ok ())

/-- The network world of `Handler::forward_opportunities`:
`listingHtml` is the outcome of the `reqwest::get` on the listing page
inside `DiscussionLink::fetch`, and `postFetchOk` / `sendOk` are
per-discussion-id oracles for `DiscussionPost::fetch_from` and
`ChannelId::send_message`. -/
structure ForwardWorld where
  listingHtml : Except Unit (List Char)
  postFetchOk : Nat → Bool
  sendOk : Nat → Bool

/-- The filter of `forward_opportunities`: keep the listing links whose
id is strictly greater than the watermark. -/
def newerThan (wm : Nat) (links : List DiscussionLink) : List DiscussionLink :=
  links.filter (fun l => decide (wm < l.id))

/-- The forwarding loop of `Handler::forward_opportunities`: for each
link in order, fetch the post (on failure, `?` stops the pass), then
send it to the channel (on failure, `?` stops the pass). -/
def forwardLoop (w : ForwardWorld) : List DiscussionLink → List BotAction × Except Unit Unit
  | [] => ([], .ok ())
  | l :: ls =>
    if w.postFetchOk l.id then
      if w.sendOk l.id then
        let (acts, r) := forwardLoop w ls
        (.fetchPost l.id :: .sendPost l.id :: acts, r)
      else ([.fetchPost l.id, .sendPost l.id], .error ())
    else ([.fetchPost l.id], .error ())

/-- `Handler::forward_opportunities`: resolve the watermark from the
history, fetch the listing and extract its links (already sorted by
`pull_from`), keep the ids above the watermark, and forward them in
order.  `none` models a `pull_from` panic (in the watermark scan or on
the listing page). -/
def forward_opportunities (hist : List ChannelMessage) (w : ForwardWorld) :
    Option (List BotAction × Except Unit Unit) :=
  match get_last_posted_opportunity_id hist with
  | none => none
  | some wm =>
    match w.listingHtml with
    | .error _ => some ([.fetchListing], .error ())
    | .ok html =>
      match pull_from html with
      | none => none
      | some links =>
        let (acts, r) := forwardLoop w (newerThan wm links)
        some (.fetchListing :: acts, r)

/-- `Handler::handle_channel`: run `delete_illegal_posts`; on error
return it at once, otherwise run `forward_opportunities`. -/
def handle_channel (hist : List ChannelMessage) (w : ForwardWorld) :
    Option (List BotAction × Except Unit Unit) :=
  match delete_illegal_posts hist with
  | (acts, .error e) => some (acts, .error e)
  | (acts, .ok _) =>
    match forward_opportunities hist w with
    | none => none
    | some (acts2, r) => some (acts ++ acts2, r)

/-- The message indices of the deletion attempts in a trace. -/
def deletedIndices (acts : List BotAction) : List Nat :=
  acts.filterMap (fun a => match a with | .deleteMsg i => some i | _ => none)

/-- The discussion ids of the channel send attempts in a trace. -/
def sentIds (acts : List BotAction) : List Nat :=
  acts.filterMap (fun a => match a with | .sendPost i => some i | _ => none)

/- A parsed HTML tree as exposed by the `select` crate: a text node, a
comment node, or an element with a tag name, attributes and a forest of
children.  The forest is its own inductive (rather than `List HtmlNode`)
so that the tree walks below are mutual structural recursions. -/
mutual
inductive HtmlNode where
  | text : String → HtmlNode
  | comment : String → HtmlNode
  | elem : String → List (String × String) → HtmlForest → HtmlNode
deriving Repr
inductive HtmlForest where
  | nil : HtmlForest
  | cons : HtmlNode → HtmlForest → HtmlForest
deriving Repr
end

/-- The children of a node (non-elements have none). -/
def childrenOf : HtmlNode → HtmlForest
  | .elem _ _ cs => cs
  | _ => .nil

/-- `Node::attr`: the value of the first attribute with the given name. -/
def lookupAttr (attrs : List (String × String)) (name : String) : Option String :=
  match attrs.find? (fun a => a.1 == name) with
  | some a => some a.2
  | none => none

/-- Split on whitespace, dropping empty pieces (Rust
`str::split_whitespace`; the fuel is bounded by the input length and
every step consumes at least one character, so it is never exhausted). -/
def splitWsAux : Nat → List Char → List (List Char)
  | 0, _ => []
  | _ + 1, [] => []
  | fuel + 1, c :: cs =>
    if c.isWhitespace then splitWsAux fuel cs
    else
      (c :: cs.takeWhile (fun d => !d.isWhitespace)) ::
        splitWsAux fuel (cs.dropWhile (fun d => !d.isWhitespace))

/-- Rust `str::split_whitespace` as a list of words. -/
def splitWs (s : List Char) : List (List Char) :=
  splitWsAux s.length s

/-- The `select` predicate `Class(c)`: an element whose `class`
attribute, split on whitespace, contains `c`. -/
def hasClass (c : String) : HtmlNode → Bool
  | .elem _ attrs _ =>
    match lookupAttr attrs "class" with
    | some cls => (splitWs cls.data).contains c.data
    | none => false
  | _ => false

/-- The `select` predicate `Name(t)`: an element with tag name `t`. -/
def nameIs (t : String) : HtmlNode → Bool
  | .elem tag _ _ => tag == t
  | _ => false

/-- The `select` predicate `Attr(name, value)`: an element whose
attribute `name` equals `value` exactly. -/
def attrIs (name value : String) : HtmlNode → Bool
  | .elem _ attrs _ => lookupAttr attrs name == some value
  | _ => false

mutual
/-- `Node::text` of the `select` crate: the concatenated text of all
descendant text nodes in document order; comments contribute nothing. -/
def nodeText : HtmlNode → String
  | .text s => s
  | .comment _ => ""
  | .elem _ _ cs => forestText cs
/-- `Node::text` summed over a forest. -/
def forestText : HtmlForest → String
  | .nil => ""
  | .cons n ns => nodeText n ++ forestText ns
end

mutual
/-- `find(...).next()` restricted to one subtree: the node itself if it
satisfies `p`, else the first match in its children, in preorder. -/
def findNode (p : HtmlNode → Bool) : HtmlNode → Option HtmlNode
  | .text s => if p (.text s) then some (.text s) else none
  | .comment s => if p (.comment s) then some (.comment s) else none
  | .elem t a cs =>
    if p (.elem t a cs) then some (.elem t a cs) else findForest p cs
/-- `Document::find(...).next()` over a forest in document (preorder)
order.  For the descendants of a node, apply it to the node's children
(`Node::find` does not yield the node itself). -/
def findForest (p : HtmlNode → Bool) : HtmlForest → Option HtmlNode
  | .nil => none
  | .cons n ns =>
    match findNode p n with
    | some m => some m
    | none => findForest p ns
end

/-- `MarkdownOptions` from `html_walker.rs`. -/
structure MarkdownOptions where
  use_bold_for_headers : Bool
deriving Repr, DecidableEq

/-- `MarkdownWalker::visit_header`: leading newline, then `#`-markers
and a space (or `**` in bold mode), the children's output, the closing
`**` in bold mode, and a trailing newline. -/
def emitHeader (opts : MarkdownOptions) (level : Nat) (inner : List String) : List String :=
  ["\n"] ++
    (if !opts.use_bold_for_headers then List.replicate level "#" ++ [" "] else ["**"]) ++
    inner ++
    (if opts.use_bold_for_headers then ["**"] else []) ++
    ["\n"]

/-- The element dispatch of `MarkdownWalker::visit`, given the output
`inner` already produced for the children.  The `br` arm ignores
`inner`, matching the Rust code, which does not visit the children of a
`br`. -/
def emitElem (opts : MarkdownOptions) (tag : String) (attrs : List (String × String))
    (inner : List String) : List String :=
  if tag = "p" ∨ tag = "div" ∨ tag = "tr" then inner ++ ["\n"]
  else if tag = "br" then ["\n"]
  else if tag = "a" then
    ["["] ++ inner ++ ["]"] ++
      (match lookupAttr attrs "href" with
       | some target => ["(", target, ") "]
       | none => [])
  else if tag = "i" ∨ tag = "emph" then ["_"] ++ inner ++ ["_"]
  else if tag = "b" ∨ tag = "strong" then ["**"] ++ inner ++ ["**"]
  else if tag = "code" then ["`"] ++ inner ++ ["`"]
  else if tag = "pre" then ["\n```\n"] ++ inner ++ ["\n```\n"]
  else if tag = "h1" then emitHeader opts 1 inner
  else if tag = "h2" then emitHeader opts 2 inner
  else if tag = "h3" then emitHeader opts 3 inner
  else if tag = "quote" then ["\n> "] ++ inner ++ ["\n"]
  else inner

mutual
/-- `MarkdownWalker::visit`: the pushes to the walker's buffer, in
order: text nodes verbatim, comments suppressed, elements via
`emitElem` around their children's output. -/
def visitNode (opts : MarkdownOptions) : HtmlNode → List String
  | .text s => [s]
  | .comment _ => []
  | .elem tag attrs cs => emitElem opts tag attrs (visitForest opts cs)
/-- `MarkdownWalker::visit_children`: visit a forest in order. -/
def visitForest (opts : MarkdownOptions) : HtmlForest → List String
  | .nil => []
  | .cons n ns => visitNode opts n ++ visitForest opts ns
end

/-- `MarkdownWalker::get_content`: join the buffer and trim. -/
def walkerContent (buffer : List String) : String :=
  trimString (String.join buffer)

/-- `MarkdownWalker::start` followed by `get_content` with the given
options: the fragment is wrapped in an `<html>` element (as `start`
does with `format!("<html>{}</html>", html)`) and visited. -/
def convertFragment (opts : MarkdownOptions) (fragment : HtmlForest) : String :=
  walkerContent (visitNode opts (.elem "html" [] fragment))

/-- `html_to_md` from `html_walker.rs`: conversion with the default
options (true heading markers, `use_bold_for_headers = false`). -/
def html_to_md (fragment : HtmlForest) : String :=
  convertFragment ⟨false⟩ fragment

/-- `DiscussionPost` from `github_scraper.rs`. -/
structure DiscussionPost where
  content : String
  author : String
  url : DiscussionLink
deriving Repr

/-- The `select` predicate `Class("unminimized-comment")`. -/
def isUnminimizedComment (n : HtmlNode) : Bool :=
  hasClass "unminimized-comment" n

/-- The author query of `DiscussionPost::pull_from`:
`And(Class("author"), Name("a"))`. -/
def isAuthorNode (n : HtmlNode) : Bool :=
  hasClass "author" n && nameIs "a" n

/-- The content query of `DiscussionPost::pull_from`:
`And(Attr("data-paste-markdown-skip", ""), Class("js-translation-source"))`. -/
def isContentNode (n : HtmlNode) : Bool :=
  attrIs "data-paste-markdown-skip" "" n && hasClass "js-translation-source" n

/-- `DiscussionPost::pull_from` on the parsed document `doc`: find the
first `unminimized-comment` node (none: `PostNotFoundError`, modelled as
`Except.error ()`); inside it find the author node (falling back to
`"Unknown Author"`) and the content node, whose *plain text*
(`node.text()`, per the code and its TODO remark, not a markdown
conversion) becomes the content (falling back to the literal sentinel);
trim both. -/
def post_pull_from (link : DiscussionLink) (doc : HtmlForest) : Except Unit DiscussionPost :=
  match findForest isUnminimizedComment doc with
  | none => .error ()
  | some fc =>
    let author :=
      match findForest isAuthorNode (childrenOf fc) with
      | some node => nodeText node
      | none => "Unknown Author"
    let content :=
      match findForest isContentNode (childrenOf fc) with
      | some node => nodeText node
      | none => "Unable to find content for this post!!!"
    .ok ⟨trimString content, trimString author, link⟩

/-- Moderation trace of `n` successfully blocked messages: a deletion
and a direct message for each history index below `n`, in order. -/
def fullBlockTrace (n : Nat) : List BotAction :=
  ((List.range n).map (fun j => [BotAction.deleteMsg j, BotAction.dmAuthor j])).flatten

/-- Text with matches for ids 5, 3 and again 5, in that order. -/
def w5text : List Char :=
  ("/UWAppDev/opportunities-forwarding-bot/discussions/5 " ++
   "/UWAppDev/opportunities-forwarding-bot/discussions/3 " ++
   "/UWAppDev/opportunities-forwarding-bot/discussions/5").data

/-- What `pull_from` extracts from `w5text`. -/
def w5links : List DiscussionLink :=
  [⟨"/UWAppDev/opportunities-forwarding-bot/discussions/3".data, 3⟩,
   ⟨"/UWAppDev/opportunities-forwarding-bot/discussions/5".data, 5⟩]

/-- A discussion link whose id does not fit in a `u16`. -/
def overflowText : List Char :=
  "/UWAppDev/opportunities-forwarding-bot/discussions/99999".data

/-- A history whose most recent own message has no discussion link,
while an older own message links discussion 7. -/
def c1hist : List ChannelMessage :=
  [⟨true, "no discussion links in this message".data, true, true⟩,
   ⟨true, "/UWAppDev/opportunities-forwarding-bot/discussions/7".data, true, true⟩]

/-- A human message above the bot's most recent reference-bearing post. -/
def w1pre : List ChannelMessage := [⟨false, "a human message".data, true, true⟩]

/-- An own message whose extracted reference ids are {3, 5, 9}. -/
def w1msg : ChannelMessage :=
  ⟨true,
   ("see /UWAppDev/opportunities-forwarding-bot/discussions/5 and " ++
    "/UWAppDev/opportunities-forwarding-bot/discussions/3 and " ++
    "/UWAppDev/opportunities-forwarding-bot/discussions/9").data,
   true, true⟩

/-- Older history below `w1msg`. -/
def w1suf : List ChannelMessage :=
  [⟨true, "/UWAppDev/opportunities-forwarding-bot/discussions/1".data, true, true⟩]

/-- History whose most recent reference-bearing own message carries
ids {3, 5, 9}. -/
def w1hist : List ChannelMessage := w1pre ++ w1msg :: w1suf

/-- The first link extracted from `w1msg` (smallest id, 3). -/
def w1link : DiscussionLink :=
  ⟨"/UWAppDev/opportunities-forwarding-bot/discussions/3".data, 3⟩

/-- The rest of the links extracted from `w1msg` (ids 5 and 9). -/
def w1rest : List DiscussionLink :=
  [⟨"/UWAppDev/opportunities-forwarding-bot/discussions/5".data, 5⟩,
   ⟨"/UWAppDev/opportunities-forwarding-bot/discussions/9".data, 9⟩]

/-- The history `[human:"spam", self:"anchor", human:"older-spam"]`
with every platform call succeeding. -/
def w3hist : List ChannelMessage :=
  [⟨false, "spam".data, true, true⟩,
   ⟨true, "anchor".data, true, true⟩,
   ⟨false, "older-spam".data, true, true⟩]

/-- Two human messages above an anchor; deleting the first fails. -/
def c4hist : List ChannelMessage :=
  [⟨false, "first spam".data, false, true⟩,
   ⟨false, "second spam".data, true, true⟩,
   ⟨true, "anchor".data, true, true⟩]

/-- A history whose own message links discussion 3. -/
def w2hist : List ChannelMessage :=
  [⟨true, "/UWAppDev/opportunities-forwarding-bot/discussions/3".data, true, true⟩]

/-- A listing page carrying discussion ids 0, 3 and 5. -/
def w2listing : List Char :=
  ("items: /UWAppDev/opportunities-forwarding-bot/discussions/0 and " ++
   "/UWAppDev/opportunities-forwarding-bot/discussions/3 and " ++
   "/UWAppDev/opportunities-forwarding-bot/discussions/5").data

/-- The links `pull_from` extracts from `w2listing`. -/
def w2links : List DiscussionLink :=
  [⟨"/UWAppDev/opportunities-forwarding-bot/discussions/0".data, 0⟩,
   ⟨"/UWAppDev/opportunities-forwarding-bot/discussions/3".data, 3⟩,
   ⟨"/UWAppDev/opportunities-forwarding-bot/discussions/5".data, 5⟩]

/-- A world where the listing fetch succeeds and every post fetch and
channel send succeeds. -/
def w2world : ForwardWorld := ⟨.ok w2listing, fun _ => true, fun _ => true⟩

/-- The trace of forwarding exactly discussion 5. -/
def w2acts : List BotAction := [.fetchListing, .fetchPost 5, .sendPost 5]

/-- A history where moderation fails on its first deletion. -/
def w10hist : List ChannelMessage :=
  [⟨false, "spam".data, false, true⟩, ⟨true, "anchor".data, true, true⟩]

/-- A world that would fail every forwarding step, to witness that it
is never consulted. -/
def w10world : ForwardWorld := ⟨.error (), fun _ => false, fun _ => false⟩

/-- The first comment's content node: a `<div>` (with the content
markers) holding `<i>a</i>`. -/
def c7contentNode : HtmlNode :=
  .elem "div" [("data-paste-markdown-skip", ""), ("class", "js-translation-source")]
    (.cons (.elem "i" [] (.cons (.text "a") .nil)) .nil)

/-- A fetched discussion page whose first comment holds `c7contentNode`
and no author markup. -/
def c7doc : HtmlForest :=
  .cons (.elem "div" [("class", "unminimized-comment")] (.cons c7contentNode .nil)) .nil

/-- An arbitrary link for the fetched page. -/
def c7link : DiscussionLink :=
  ⟨"/UWAppDev/opportunities-forwarding-bot/discussions/5".data, 5⟩

/-- An arbitrary link for C8's fetched pages. -/
def c8link : DiscussionLink :=
  ⟨"/UWAppDev/opportunities-forwarding-bot/discussions/9".data, 9⟩

/-- A fetched page with no `unminimized-comment` node at all. -/
def c8doc : HtmlForest :=
  .cons (.elem "div" [] (.cons (.text "nothing here") .nil)) .nil

/-- A fetched page whose comment container holds neither author nor
content markup. -/
def w8doc : HtmlForest :=
  .cons (.elem "div" [("class", "unminimized-comment")] (.cons (.text "bare") .nil)) .nil

/-- The claim's HTML fragment, with no whitespace between elements:
`<div><h1>This is a test</h1><p>Of <i>a</i> thing.</p></div>`. -/
def c9fragment : HtmlForest :=
  .cons (.elem "div" []
    (.cons (.elem "h1" [] (.cons (.text "This is a test") .nil))
    (.cons (.elem "p" []
      (.cons (.text "Of ")
      (.cons (.elem "i" [] (.cons (.text "a") .nil))
      (.cons (.text " thing.") .nil))))
    .nil))) .nil

/-- The fragment of the repository's own `test_simple_html2md`, where
the `<h1>` and `<p>` are separated by newline text nodes. -/
def c9testFragment : HtmlForest :=
  .cons (.text "\n")
  (.cons (.elem "div" []
    (.cons (.text "\n")
    (.cons (.elem "h1" [] (.cons (.text "This is a test") .nil))
    (.cons (.text "\n")
    (.cons (.elem "p" []
      (.cons (.text "Of ")
      (.cons (.elem "i" [] (.cons (.text "a") .nil))
      (.cons (.text " thing.") .nil))))
    (.cons (.text "\n") .nil))))))
  (.cons (.text "\n        ") .nil))

theorem dedupFirst_mem {l : DiscussionLink} :
    ∀ (ms : List DiscussionLink) (seen : List Nat),
      l ∈ dedupFirst ms seen → l ∈ ms ∧ l.id ∉ seen
  | [], seen, h => by simp [dedupFirst] at h
  | a :: as, seen, h => by
    by_cases ha : a.id ∈ seen
    · simp only [dedupFirst, if_pos ha] at h
      have ih := dedupFirst_mem as seen h
      exact ⟨List.mem_cons_of_mem _ ih.1, ih.2⟩
    · simp only [dedupFirst, if_neg ha] at h
      rcases List.mem_cons.mp h with rfl | h2
      · exact ⟨List.mem_cons_self _ _, ha⟩
      · have ih := dedupFirst_mem as (a.id :: seen) h2
        exact ⟨List.mem_cons_of_mem _ ih.1,
          fun hs => ih.2 (List.mem_cons_of_mem _ hs)⟩

theorem dedupFirst_ids_nodup :
    ∀ (ms : List DiscussionLink) (seen : List Nat),
      ((dedupFirst ms seen).map (fun l => l.id)).Nodup
  | [], _ => by simp [dedupFirst]
  | a :: as, seen => by
    by_cases ha : a.id ∈ seen
    · simpa [dedupFirst, ha] using dedupFirst_ids_nodup as seen
    · simp only [dedupFirst, if_neg ha, List.map_cons, List.nodup_cons]
      refine ⟨?_, dedupFirst_ids_nodup as (a.id :: seen)⟩
      intro hmem
      rcases List.mem_map.mp hmem with ⟨x, hx, hid⟩
      exact (dedupFirst_mem as (a.id :: seen) hx).2
        (by rw [hid]; exact List.mem_cons_self _ _)

theorem find?_cons_skip {p : DiscussionLink → Bool} {a : DiscussionLink}
    (as : List DiscussionLink) (h : p a = false) :
    List.find? p (a :: as) = List.find? p as := by
  simp [List.find?, h]

theorem find?_cons_hit {p : DiscussionLink → Bool} {a : DiscussionLink}
    (as : List DiscussionLink) (h : p a = true) :
    List.find? p (a :: as) = some a := by
  simp [List.find?, h]

theorem dedupFirst_find? {l : DiscussionLink} :
    ∀ (ms : List DiscussionLink) (seen : List Nat),
      l ∈ dedupFirst ms seen → ms.find? (fun m => m.id == l.id) = some l
  | [], seen, h => by simp [dedupFirst] at h
  | a :: as, seen, h => by
    by_cases ha : a.id ∈ seen
    · simp only [dedupFirst, if_pos ha] at h
      have hlid := (dedupFirst_mem as seen h).2
      rw [find?_cons_skip as (by
        simp only [beq_eq_false_iff_ne]
        intro he
        exact hlid (he ▸ ha))]
      exact dedupFirst_find? as seen h
    · simp only [dedupFirst, if_neg ha] at h
      rcases List.mem_cons.mp h with rfl | h2
      · exact find?_cons_hit as (by simp)
      · have hlid := (dedupFirst_mem as (a.id :: seen) h2).2
        rw [find?_cons_skip as (by
          simp only [beq_eq_false_iff_ne]
          intro he
          exact hlid (List.mem_cons.mpr (Or.inl he.symm)))]
        exact dedupFirst_find? as (a.id :: seen) h2

theorem sortInsert_perm (a : DiscussionLink) :
    ∀ l : List DiscussionLink, List.Perm (sortInsert a l) (a :: l)
  | [] => List.Perm.refl _
  | b :: l => by
    by_cases h : a.id ≤ b.id
    · simp only [sortInsert, if_pos h]
      exact List.Perm.refl _
    · simp only [sortInsert, if_neg h]
      exact ((sortInsert_perm a l).cons b).trans (List.Perm.swap a b l)

theorem sortById_perm : ∀ l : List DiscussionLink, List.Perm (sortById l) l
  | [] => List.Perm.refl _
  | b :: l => by
    simp only [sortById]
    exact (sortInsert_perm b (sortById l)).trans ((sortById_perm l).cons b)

theorem sortInsert_sorted (a : DiscussionLink) :
    ∀ l : List DiscussionLink, l.Pairwise (fun x y => x.id ≤ y.id) →
      (sortInsert a l).Pairwise (fun x y => x.id ≤ y.id)
  | [], _ => by simp [sortInsert]
  | b :: l, hp => by
    rcases List.pairwise_cons.mp hp with ⟨hb, hl⟩
    by_cases h : a.id ≤ b.id
    · simp only [sortInsert, if_pos h]
      refine List.pairwise_cons.mpr ⟨?_, hp⟩
      intro x hx
      rcases List.mem_cons.mp hx with rfl | hx2
      · exact h
      · exact le_trans h (hb x hx2)
    · simp only [sortInsert, if_neg h]
      refine List.pairwise_cons.mpr ⟨?_, sortInsert_sorted a l hl⟩
      intro x hx
      rcases List.mem_cons.mp ((sortInsert_perm a l).mem_iff.mp hx) with rfl | hx3
      · exact le_of_not_le h
      · exact hb x hx3

theorem sortById_sorted : ∀ l : List DiscussionLink,
    (sortById l).Pairwise (fun x y => x.id ≤ y.id)
  | [] => by simp [sortById]
  | b :: l => by
    simp only [sortById]
    exact sortInsert_sorted b (sortById l) (sortById_sorted l)

theorem pairwise_lt_of_le_nodup {l : List DiscussionLink}
    (hle : l.Pairwise (fun x y => x.id ≤ y.id))
    (hnd : (l.map (fun x => x.id)).Nodup) :
    l.Pairwise (fun x y => x.id < y.id) := by
  have hne : l.Pairwise (fun x y => x.id ≠ y.id) := List.pairwise_map.mp hnd
  exact (hle.and hne).imp (fun h => lt_of_le_of_ne h.1 h.2)

theorem pull_from_eq {text : List Char} {links : List DiscussionLink}
    (h : pull_from text = some links) :
    ∃ ms, parsedMatches text = some ms ∧ links = sortById (dedupFirst ms []) := by
  unfold pull_from at h
  rcases hm : parsedMatches text with _ | ms
  · rw [hm] at h
    simp at h
  · rw [hm] at h
    simp only [Option.map_some'] at h
    exact ⟨ms, rfl, (Option.some_inj.mp h).symm⟩

theorem pull_from_sorted {text : List Char} {links : List DiscussionLink}
    (h : pull_from text = some links) :
    links.Pairwise (fun x y => x.id < y.id) := by
  rcases pull_from_eq h with ⟨ms, _, rfl⟩
  refine pairwise_lt_of_le_nodup (sortById_sorted _) ?_
  have hperm := (sortById_perm (dedupFirst ms [])).map (fun x : DiscussionLink => x.id)
  exact hperm.nodup_iff.mpr (dedupFirst_ids_nodup ms [])

theorem pull_from_first_wins {text : List Char} {links : List DiscussionLink}
    {l : DiscussionLink} (h : pull_from text = some links) (hl : l ∈ links) :
    ∃ ms, parsedMatches text = some ms ∧
      ms.find? (fun m => m.id == l.id) = some l := by
  rcases pull_from_eq h with ⟨ms, hm, rfl⟩
  exact ⟨ms, hm, dedupFirst_find? ms [] ((sortById_perm _).mem_iff.mp hl)⟩

theorem pull_from_no_match {text : List Char} (h : scanMatches text = []) :
    pull_from text = some [] := by
  unfold pull_from parsedMatches
  rw [h]
  rfl

/-- C5: for every input text on which extraction returns (i.e. does not
panic), the returned list is strictly ascending by id (hence the ids are
pairwise distinct); every returned link is the *first* match of the text
carrying its id (first occurrence wins); and text with no matches yields
the empty list. -/
theorem extraction_sorted_dedup (text : List Char) (links : List DiscussionLink)
    (h : pull_from text = some links) :
    links.Pairwise (fun x y => x.id < y.id) ∧
    (∀ l ∈ links, ∃ ms, parsedMatches text = some ms ∧
      ms.find? (fun m => m.id == l.id) = some l) ∧
    (scanMatches text = [] → links = []) := by
  refine ⟨pull_from_sorted h, fun l hl => pull_from_first_wins h hl, fun hs => ?_⟩
  have hnil := pull_from_no_match hs
  rw [h] at hnil
  exact Option.some_inj.mp hnil

/-- Witness for C5: on text matching ids 5, 3, 5 in that order,
extraction returns the links with ids 3 and 5, sorted and deduplicated. -/
theorem extraction_sorted_dedup_witness :
    pull_from w5text = some w5links ∧
    (w5links.Pairwise (fun x y => x.id < y.id) ∧
      (∀ l ∈ w5links, ∃ ms, parsedMatches w5text = some ms ∧
        ms.find? (fun m => m.id == l.id) = some l) ∧
      (scanMatches w5text = [] → w5links = [])) :=
  ⟨rfl, extraction_sorted_dedup w5text w5links rfl⟩

/-- C6: extraction is *not* total — the code parses each matched id with
`.parse::<u16>().unwrap()`, so a matched id of 99999 (which exceeds
`u16::MAX`) panics the extraction.  The text below produces exactly one
match, and `pull_from` on it panics (`none`). -/
theorem extraction_overflow_panics :
    scanMatches overflowText = [(overflowText, "99999".data)] ∧
    pull_from overflowText = none :=
  ⟨rfl, rfl⟩

theorem watermark_aux_all_refless :
    ∀ (hist : List ChannelMessage) (acc : Nat),
      (∀ m ∈ hist, m.isOwn = true → pull_from m.content = some []) →
      get_last_posted_opportunity_id_aux acc hist = some acc
  | [], _, _ => rfl
  | m :: ms, acc, h => by
    by_cases hm : m.isOwn = true
    · have hp := h m (List.mem_cons_self _ _) hm
      simp only [get_last_posted_opportunity_id_aux, hm, if_true, hp, List.head?]
      exact watermark_aux_all_refless ms acc (fun x hx => h x (List.mem_cons_of_mem _ hx))
    · simp only [get_last_posted_opportunity_id_aux, hm, if_false]
      exact watermark_aux_all_refless ms acc (fun x hx => h x (List.mem_cons_of_mem _ hx))

theorem watermark_aux_first_ref {m : ChannelMessage} {l : DiscussionLink}
    {links : List DiscussionLink}
    (hm : m.isOwn = true) (hp : pull_from m.content = some (l :: links)) :
    ∀ (pre suf : List ChannelMessage) (acc : Nat),
      (∀ x ∈ pre, x.isOwn = true → pull_from x.content = some []) →
      get_last_posted_opportunity_id_aux acc (pre ++ m :: suf) = some (max l.id acc)
  | [], suf, acc, _ => by
    simp [get_last_posted_opportunity_id_aux, hm, hp, List.head?]
  | x :: pre, suf, acc, hpre => by
    by_cases hx : x.isOwn = true
    · have hxe := hpre x (List.mem_cons_self _ _) hx
      simp only [List.cons_append, get_last_posted_opportunity_id_aux, hx, if_true, hxe,
        List.head?]
      exact watermark_aux_first_ref hm hp pre suf acc
        (fun y hy => hpre y (List.mem_cons_of_mem _ hy))
    · simp only [List.cons_append, get_last_posted_opportunity_id_aux, hx, if_false]
      exact watermark_aux_first_ref hm hp pre suf acc
        (fun y hy => hpre y (List.mem_cons_of_mem _ hy))

/-- C1 counterexample: in `c1hist` the most recent message is
system-authored and yields no references, so the claim predicts a
watermark of 0 with older messages never consulted; the code instead
keeps scanning past it and returns 7, extracted from the *older*
system-authored message. -/
theorem watermark_counterexample :
    (c1hist.head?.map (fun m => m.isOwn)) = some true ∧
    (c1hist.head?.map (fun m => pull_from m.content)) = some (some []) ∧
    get_last_posted_opportunity_id c1hist = some 7 ∧
    (7 : Nat) ≠ 0 :=
  ⟨rfl, rfl, rfl, by decide⟩

/-- C1 (amended): the watermark resolver scans newest-first, *skipping*
system-authored messages that yield no references (rather than stopping
at them); it stops at the first system-authored message whose extraction
yields at least one reference and returns the id of the first (smallest)
extracted reference of that message, regardless of anything older; if
every system-authored message yields no references (in particular if
there is none), the watermark is 0. -/
theorem watermark_resolution (hist : List ChannelMessage) :
    ((∀ m ∈ hist, m.isOwn = true → pull_from m.content = some []) →
      get_last_posted_opportunity_id hist = some 0) ∧
    (∀ (pre : List ChannelMessage) (m : ChannelMessage) (suf : List ChannelMessage)
        (l : DiscussionLink) (links : List DiscussionLink),
      hist = pre ++ m :: suf →
      m.isOwn = true →
      pull_from m.content = some (l :: links) →
      (∀ x ∈ pre, x.isOwn = true → pull_from x.content = some []) →
      get_last_posted_opportunity_id hist = some l.id) := by
  constructor
  · intro h
    exact watermark_aux_all_refless hist 0 h
  · intro pre m suf l links hsplit hm hp hpre
    subst hsplit
    unfold get_last_posted_opportunity_id
    rw [watermark_aux_first_ref hm hp pre suf 0 hpre, Nat.max_zero]

/-- Witness for C1 (amended): on a history whose most recent
reference-bearing own message carries ids {3, 5, 9}, the watermark is 3
(the first element of the ascending extracted list). -/
theorem watermark_resolution_witness :
    pull_from w1msg.content = some (w1link :: w1rest) ∧
    get_last_posted_opportunity_id w1hist = some 3 :=
  ⟨rfl,
    (watermark_resolution w1hist).2 w1pre w1msg w1suf w1link w1rest rfl rfl rfl
      (by decide)⟩

theorem collectTargets_all_human :
    ∀ hist : List ChannelMessage, (∀ x ∈ hist, x.isOwn = false) →
      collectTargets hist = (hist, false)
  | [], _ => rfl
  | m :: ms, h => by
    have hm := h m (List.mem_cons_self _ _)
    simp only [collectTargets, hm, Bool.false_eq_true, if_false,
      collectTargets_all_human ms (fun x hx => h x (List.mem_cons_of_mem _ hx))]

theorem collectTargets_split {m : ChannelMessage} (hm : m.isOwn = true) :
    ∀ (pre suf : List ChannelMessage), (∀ x ∈ pre, x.isOwn = false) →
      collectTargets (pre ++ m :: suf) = (pre, true)
  | [], suf, _ => by simp [collectTargets, hm]
  | x :: pre, suf, h => by
    have hx := h x (List.mem_cons_self _ _)
    simp only [List.cons_append, collectTargets, hx, Bool.false_eq_true, if_false,
      List.append_eq,
      collectTargets_split hm pre suf (fun y hy => h y (List.mem_cons_of_mem _ hy))]

theorem processTargets_all_ok :
    ∀ (ts : List ChannelMessage) (i : Nat),
      (∀ t ∈ ts, t.deleteOk = true ∧ t.dmOk = true) →
      processTargets i ts =
        (((List.range' i ts.length).map
            (fun j => [BotAction.deleteMsg j, BotAction.dmAuthor j])).flatten,
          Except.ok ())
  | [], i, _ => rfl
  | m :: ts, i, h => by
    rcases h m (List.mem_cons_self _ _) with ⟨hd, hm⟩
    simp only [processTargets, block_illegal_post, hd, hm, if_true, List.append_eq,
      processTargets_all_ok ts (i + 1) (fun t ht => h t (List.mem_cons_of_mem _ ht)),
      List.length_cons, List.range', List.map_cons, List.flatten_cons, List.cons_append,
      List.nil_append]

theorem processTargets_failfast {f : ChannelMessage} (hf : f.deleteOk = false) :
    ∀ (ts1 rest : List ChannelMessage) (i : Nat),
      (∀ t ∈ ts1, t.deleteOk = true ∧ t.dmOk = true) →
      processTargets i (ts1 ++ f :: rest) =
        (((List.range' i ts1.length).map
            (fun j => [BotAction.deleteMsg j, BotAction.dmAuthor j])).flatten
          ++ [BotAction.deleteMsg (i + ts1.length)], Except.error ())
  | [], rest, i, _ => by
    simp [processTargets, block_illegal_post, hf]
  | m :: ts1, rest, i, h => by
    rcases h m (List.mem_cons_self _ _) with ⟨hd, hm⟩
    have harith : i + (ts1.length + 1) = (i + 1) + ts1.length := by omega
    simp only [List.cons_append, processTargets, block_illegal_post, hd, hm, if_true,
      List.append_eq,
      processTargets_failfast hf ts1 rest (i + 1)
        (fun t ht => h t (List.mem_cons_of_mem _ ht)),
      List.length_cons, List.range', List.map_cons, List.flatten_cons, List.cons_append,
      List.nil_append, List.append_assoc, harith]

theorem deletedIndices_fullBlockAux : ∀ js : List Nat,
    deletedIndices ((js.map
      (fun j => [BotAction.deleteMsg j, BotAction.dmAuthor j])).flatten) = js
  | [] => rfl
  | j :: js => by
    simp only [List.map_cons, List.flatten_cons]
    unfold deletedIndices
    rw [List.filterMap_append]
    have h1 : List.filterMap
        (fun a => match a with | BotAction.deleteMsg i => some i | _ => none)
        [BotAction.deleteMsg j, BotAction.dmAuthor j] = [j] := rfl
    rw [h1]
    have h2 := deletedIndices_fullBlockAux js
    unfold deletedIndices at h2
    rw [h2]
    rfl

/-- C3: with every platform call succeeding, moderation deletes exactly
the messages above the bot's most recent own message: when the history
splits as `pre ++ m :: suf` with `pre` all human-authored and `m` the
bot's own, exactly the history indices of `pre` (`0 .. pre.length - 1`)
receive a deletion; and when no system-authored message exists in the
history at all, nothing is deleted. -/
theorem moderation_deletes_exactly_above_anchor (hist : List ChannelMessage)
    (hok : ∀ x ∈ hist, x.deleteOk = true ∧ x.dmOk = true) :
    ((∀ x ∈ hist, x.isOwn = false) → delete_illegal_posts hist = ([], Except.ok ())) ∧
    (∀ (pre : List ChannelMessage) (m : ChannelMessage) (suf : List ChannelMessage),
      hist = pre ++ m :: suf → m.isOwn = true → (∀ x ∈ pre, x.isOwn = false) →
      deletedIndices (delete_illegal_posts hist).1 = List.range pre.length ∧
      (delete_illegal_posts hist).2 = Except.ok ()) := by
  constructor
  · intro h
    unfold delete_illegal_posts
    rw [collectTargets_all_human hist h]
    rfl
  · intro pre m suf hsplit hm hpre
    subst hsplit
    have hokpre : ∀ t ∈ pre, t.deleteOk = true ∧ t.dmOk = true :=
      fun t ht => hok t (List.mem_append_left _ ht)
    have hdel : delete_illegal_posts (pre ++ m :: suf) =
        (((List.range' 0 pre.length).map
            (fun j => [BotAction.deleteMsg j, BotAction.dmAuthor j])).flatten,
          Except.ok ()) := by
      unfold delete_illegal_posts
      rw [collectTargets_split hm pre suf hpre]
      exact processTargets_all_ok pre 0 hokpre
    rw [hdel]
    refine ⟨?_, rfl⟩
    rw [List.range_eq_range']
    exact deletedIndices_fullBlockAux _

/-- Witness for C3 on `[human:"spam", self:"anchor", human:"older-spam"]`:
only history index 0 (the message "spam") is deleted; "older-spam",
below the anchor, is untouched. -/
theorem moderation_deletes_exactly_above_anchor_witness :
    deletedIndices (delete_illegal_posts w3hist).1 = [0] ∧
    (delete_illegal_posts w3hist).2 = Except.ok () := by
  have h := (moderation_deletes_exactly_above_anchor w3hist (by decide)).2
    [⟨false, "spam".data, true, true⟩] ⟨true, "anchor".data, true, true⟩
    [⟨false, "older-spam".data, true, true⟩] rfl rfl (by decide)
  exact ⟨h.1.trans (by rfl), h.2⟩

theorem mem_fullBlockTrace {a : BotAction} :
    ∀ n, a ∈ fullBlockTrace n →
      ∃ j, j < n ∧ (a = BotAction.deleteMsg j ∨ a = BotAction.dmAuthor j)
  | 0, h => by simp [fullBlockTrace] at h
  | n + 1, h => by
    unfold fullBlockTrace at h
    rw [List.range_succ, List.map_append, List.flatten_append] at h
    rcases List.mem_append.mp h with h1 | h2
    · rcases mem_fullBlockTrace n h1 with ⟨j, hj, hor⟩
      exact ⟨j, Nat.lt_succ_of_lt hj, hor⟩
    · simp only [List.map_cons, List.map_nil, List.flatten_cons, List.flatten_nil,
        List.append_nil] at h2
      rcases List.mem_cons.mp h2 with rfl | h3
      · exact ⟨n, Nat.lt_succ_self n, Or.inl rfl⟩
      · rcases List.mem_cons.mp h3 with rfl | h4
        · exact ⟨n, Nat.lt_succ_self n, Or.inr rfl⟩
        · simp at h4

/-- C4 counterexample: on `c4hist` the deletion of the first collected
message fails; its direct message is skipped and the error surfaced (as
the claim says), but the second collected message — also above the
anchor — is never attempted, contradicting the claim that a failure on
one message does not prevent attempting the others. -/
theorem moderation_failure_counterexample :
    delete_illegal_posts c4hist = ([BotAction.deleteMsg 0], Except.error ()) ∧
    BotAction.deleteMsg 1 ∉ (delete_illegal_posts c4hist).1 ∧
    BotAction.dmAuthor 0 ∉ (delete_illegal_posts c4hist).1 :=
  ⟨rfl, by decide, by decide⟩

/-- C4 (amended): when the deletion of a collected message fails, the
direct message for that message is skipped and the failure is surfaced
to the caller, and the pass stops there: the remaining collected
messages are *not* attempted.  The collected run is `pre1 ++ f :: pre2`
(all human) above the anchor; every message of `pre1` blocks
successfully and `f`'s deletion fails, so the trace is the full blocks
for `pre1` followed by the single failed deletion of `f`. -/
theorem moderation_failfast (pre1 : List ChannelMessage) (f : ChannelMessage)
    (pre2 : List ChannelMessage) (anchor : ChannelMessage) (suf : List ChannelMessage)
    (hpre1own : ∀ x ∈ pre1, x.isOwn = false)
    (hpre1ok : ∀ x ∈ pre1, x.deleteOk = true ∧ x.dmOk = true)
    (hfown : f.isOwn = false)
    (hffail : f.deleteOk = false)
    (hpre2 : ∀ x ∈ pre2, x.isOwn = false)
    (hanchor : anchor.isOwn = true) :
    delete_illegal_posts ((pre1 ++ f :: pre2) ++ anchor :: suf) =
      (fullBlockTrace pre1.length ++ [BotAction.deleteMsg pre1.length],
        Except.error ()) ∧
    BotAction.dmAuthor pre1.length ∉
      (delete_illegal_posts ((pre1 ++ f :: pre2) ++ anchor :: suf)).1 := by
  have hprefix : ∀ x ∈ pre1 ++ f :: pre2, x.isOwn = false := by
    intro x hx
    rcases List.mem_append.mp hx with h1 | h2
    · exact hpre1own x h1
    · rcases List.mem_cons.mp h2 with rfl | h3
      · exact hfown
      · exact hpre2 x h3
  have hdel : delete_illegal_posts ((pre1 ++ f :: pre2) ++ anchor :: suf) =
      (fullBlockTrace pre1.length ++ [BotAction.deleteMsg pre1.length],
        Except.error ()) := by
    unfold delete_illegal_posts
    rw [collectTargets_split hanchor (pre1 ++ f :: pre2) suf hprefix]
    refine (processTargets_failfast hffail pre1 pre2 0 hpre1ok).trans ?_
    unfold fullBlockTrace
    rw [List.range_eq_range', Nat.zero_add]
  refine ⟨hdel, ?_⟩
  rw [hdel]
  intro hmem
  rcases List.mem_append.mp hmem with h1 | h2
  · rcases mem_fullBlockTrace pre1.length h1 with ⟨j, hj, hor⟩
    rcases hor with he | he
    · exact BotAction.noConfusion he
    · have : pre1.length = j := by injection he
      omega
  · rcases List.mem_cons.mp h2 with he | h3
    · exact BotAction.noConfusion he
    · simp at h3

/-- Witness for C4 (amended) on `c4hist`: the trace is the single failed
deletion and no direct message is sent for it. -/
theorem moderation_failfast_witness :
    delete_illegal_posts c4hist = ([BotAction.deleteMsg 0], Except.error ()) ∧
    BotAction.dmAuthor 0 ∉ (delete_illegal_posts c4hist).1 := by
  have h := moderation_failfast [] ⟨false, "first spam".data, false, true⟩
    [⟨false, "second spam".data, true, true⟩] ⟨true, "anchor".data, true, true⟩ []
    (by decide) (by decide) rfl rfl (by decide) rfl
  simpa [c4hist, fullBlockTrace] using h

theorem sentIds_forwardLoop (w : ForwardWorld) :
    ∀ links : List DiscussionLink,
      (∃ k, sentIds (forwardLoop w links).1 = (links.map (fun l => l.id)).take k) ∧
      ((forwardLoop w links).2 = Except.ok () →
        sentIds (forwardLoop w links).1 = links.map (fun l => l.id))
  | [] => ⟨⟨0, rfl⟩, fun _ => rfl⟩
  | l :: ls => by
    rcases sentIds_forwardLoop w ls with ⟨⟨k, hk⟩, hok⟩
    by_cases hf : w.postFetchOk l.id = true
    · by_cases hs : w.sendOk l.id = true
      · simp only [forwardLoop, hf, hs, if_true]
        constructor
        · exact ⟨k + 1, by simp [sentIds, List.filterMap_cons] at hk ⊢; exact hk⟩
        · intro hr
          simp only [sentIds, List.filterMap_cons] at hok ⊢
          simp [hok hr]
      · simp only [forwardLoop, hf, hs, Bool.false_eq_true, if_false, if_true]
        exact ⟨⟨1, rfl⟩, fun hr => Except.noConfusion hr⟩
    · simp only [forwardLoop, hf, Bool.false_eq_true, if_false]
      exact ⟨⟨0, rfl⟩, fun hr => Except.noConfusion hr⟩

/-- C2: in a reconciliation pass whose watermark resolves to `wm` and
whose listing fetch and extraction succeed with `links`, the attempted
channel sends are an initial segment of the ids of `links` above the
watermark in ascending order (so every reference with id `≤ wm` is
discarded, forwarding is strictly ascending with one message per post,
and a fetch or send failure stops all further forwarding while earlier
sends of the pass remain in the trace); when the pass returns `ok`,
exactly those ids were sent. -/
theorem forwarding_spec (hist : List ChannelMessage) (w : ForwardWorld)
    (wm : Nat) (html : List Char) (links : List DiscussionLink)
    (acts : List BotAction) (r : Except Unit Unit)
    (hwm : get_last_posted_opportunity_id hist = some wm)
    (hlist : w.listingHtml = Except.ok html)
    (hpull : pull_from html = some links)
    (hrun : forward_opportunities hist w = some (acts, r)) :
    (∃ rest, sentIds acts ++ rest = (newerThan wm links).map (fun l => l.id)) ∧
    (sentIds acts).Pairwise (fun a b => a < b) ∧
    (∀ i ∈ sentIds acts, wm < i) ∧
    (r = Except.ok () → sentIds acts = (newerThan wm links).map (fun l => l.id)) := by
  unfold forward_opportunities at hrun
  rw [hwm] at hrun
  dsimp only at hrun
  rw [hlist] at hrun
  dsimp only at hrun
  rw [hpull] at hrun
  dsimp only at hrun
  simp only [Option.some_inj, Prod.mk.injEq] at hrun
  obtain ⟨h1, h2⟩ := hrun
  subst h1
  subst h2
  have hsent : sentIds (BotAction.fetchListing :: (forwardLoop w (newerThan wm links)).1)
      = sentIds (forwardLoop w (newerThan wm links)).1 := rfl
  rcases sentIds_forwardLoop w (newerThan wm links) with ⟨⟨k, hk⟩, hok⟩
  have hmap : ((newerThan wm links).map (fun l => l.id)).Pairwise (fun a b => a < b) :=
    List.pairwise_map.mpr ((pull_from_sorted hpull).filter _)
  refine ⟨⟨((newerThan wm links).map (fun l => l.id)).drop k, ?_⟩, ?_, ?_, ?_⟩
  · rw [hsent, hk, List.take_append_drop]
  · rw [hsent, hk]
    exact List.Pairwise.sublist (List.take_sublist k _) hmap
  · intro i hi
    rw [hsent, hk] at hi
    have hi2 : i ∈ (newerThan wm links).map (fun l => l.id) :=
      List.mem_of_mem_take hi
    rcases List.mem_map.mp hi2 with ⟨x, hx, rfl⟩
    have := (List.mem_filter.mp hx).2
    exact of_decide_eq_true this
  · intro hr
    rw [hsent]
    exact hok hr

/-- Witness for C2: watermark 3, listing with ids {0, 3, 5}, all calls
succeeding — exactly id 5 is forwarded, as a single message. -/
theorem forwarding_spec_witness :
    forward_opportunities w2hist w2world = some (w2acts, Except.ok ()) ∧
    sentIds w2acts = [5] ∧
    (∀ i ∈ sentIds w2acts, 3 < i) := by
  have h := forwarding_spec w2hist w2world 3 w2listing w2links w2acts (Except.ok ())
    rfl rfl rfl rfl
  exact ⟨rfl, (h.2.2.2 rfl).trans (by rfl), h.2.2.1⟩

theorem processTargets_only_moderation :
    ∀ (ts : List ChannelMessage) (i : Nat), ∀ a ∈ (processTargets i ts).1,
      (∃ j, a = BotAction.deleteMsg j) ∨ ∃ j, a = BotAction.dmAuthor j
  | [], i, a, ha => by simp [processTargets] at ha
  | m :: ts, i, a, ha => by
    by_cases hd : m.deleteOk = true
    · by_cases hm : m.dmOk = true
      · simp only [processTargets, block_illegal_post, hd, hm, if_true] at ha
        rcases List.mem_cons.mp ha with rfl | ha2
        · exact Or.inl ⟨i, rfl⟩
        rcases List.mem_cons.mp ha2 with rfl | ha3
        · exact Or.inr ⟨i, rfl⟩
        · exact processTargets_only_moderation ts (i + 1) a ha3
      · simp only [processTargets, block_illegal_post, hd, hm, Bool.false_eq_true,
          if_false, if_true] at ha
        rcases List.mem_cons.mp ha with rfl | ha2
        · exact Or.inl ⟨i, rfl⟩
        rcases List.mem_cons.mp ha2 with rfl | ha3
        · exact Or.inr ⟨i, rfl⟩
        · simp at ha3
    · simp only [processTargets, block_illegal_post, hd, Bool.false_eq_true,
        if_false] at ha
      rcases List.mem_cons.mp ha with rfl | ha2
      · exact Or.inl ⟨i, rfl⟩
      · simp at ha2

theorem delete_illegal_posts_only_moderation (hist : List ChannelMessage) :
    ∀ a ∈ (delete_illegal_posts hist).1,
      (∃ j, a = BotAction.deleteMsg j) ∨ ∃ j, a = BotAction.dmAuthor j := by
  intro a ha
  unfold delete_illegal_posts at ha
  rcases hc : collectTargets hist with ⟨ts, found⟩
  rw [hc] at ha
  by_cases hf : found = true
  · subst hf
    simp only [if_true] at ha
    exact processTargets_only_moderation ts 0 a ha
  · have hff : found = false := by simpa using hf
    subst hff
    simp at ha

/-- C10: when moderation returns an error, the channel pass returns that
same error with exactly the moderation trace — the forwarding stage is
never entered, so there is no listing fetch, no post fetch and no
channel send in the pass (and a fortiori no watermark resolution, which
only happens inside the forwarding stage). -/
theorem handle_channel_stops_on_moderation_error (hist : List ChannelMessage)
    (w : ForwardWorld) (acts : List BotAction) (e : Unit)
    (h : delete_illegal_posts hist = (acts, Except.error e)) :
    handle_channel hist w = some (acts, Except.error e) ∧
    BotAction.fetchListing ∉ acts ∧
    (∀ id, BotAction.fetchPost id ∉ acts ∧ BotAction.sendPost id ∉ acts) := by
  have hshape : ∀ a ∈ acts,
      (∃ j, a = BotAction.deleteMsg j) ∨ ∃ j, a = BotAction.dmAuthor j := by
    intro a ha
    refine delete_illegal_posts_only_moderation hist a ?_
    rw [h]
    exact ha
  refine ⟨?_, ?_, ?_⟩
  · unfold handle_channel
    rw [h]
  · intro hmem
    rcases hshape _ hmem with ⟨j, hj⟩ | ⟨j, hj⟩ <;> exact BotAction.noConfusion hj
  · intro id
    constructor
    · intro hmem
      rcases hshape _ hmem with ⟨j, hj⟩ | ⟨j, hj⟩ <;> exact BotAction.noConfusion hj
    · intro hmem
      rcases hshape _ hmem with ⟨j, hj⟩ | ⟨j, hj⟩ <;> exact BotAction.noConfusion hj

/-- Witness for C10 on a history whose moderation fails at its first
deletion, in a world where every forwarding step would fail if tried:
the pass reports the moderation error and its trace holds no forwarding
action. -/
theorem handle_channel_stops_witness :
    handle_channel w10hist w10world = some ([BotAction.deleteMsg 0], Except.error ()) ∧
    BotAction.fetchListing ∉ [BotAction.deleteMsg 0] := by
  have h := handle_channel_stops_on_moderation_error w10hist w10world
    [BotAction.deleteMsg 0] () rfl
  exact ⟨h.1, h.2.1⟩

/-- C7: the content emitted for a fetched post is *not* the
MarkdownConverter's rendering of the first comment's body — the code
takes `node.text()` (plain text extraction; the TODO comment in
`DiscussionPost::pull_from` says the markdown walk is missing, and
`html_walker` is not even declared as a module in `main.rs`).  On a
comment body `<i>a</i>` the forwarded content is "a" while the
conversion yields "_a_". -/
theorem forwarded_content_is_plain_text :
    post_pull_from c7link c7doc = Except.ok ⟨"a", "Unknown Author", c7link⟩ ∧
    html_to_md (.cons c7contentNode .nil) = "_a_" ∧
    ("a" : String) ≠ "_a_" :=
  ⟨rfl, rfl, by decide⟩

/-- C8 counterexample: on a fetched page with no `unminimized-comment`
markup (the `ContentNotFound` situation), `DiscussionPost::pull_from`
fails the whole post with `PostNotFoundError` instead of yielding a post
with sentinel fields. -/
theorem post_missing_container_fails :
    post_pull_from c8link c8doc = Except.error () :=
  rfl

/-- C8 (amended): when the `unminimized-comment` container is present,
missing author markup falls back to the sentinel "Unknown Author",
missing content markup falls back to the best-effort sentinel text, and
the post still succeeds; but when the container itself is absent,
construction fails with `PostNotFoundError` rather than producing a
sentinel post. -/
theorem post_sentinels (link : DiscussionLink) (doc : HtmlForest) :
    (findForest isUnminimizedComment doc = none →
      post_pull_from link doc = Except.error ()) ∧
    (∀ fc, findForest isUnminimizedComment doc = some fc →
      findForest isAuthorNode (childrenOf fc) = none →
      ∃ p, post_pull_from link doc = Except.ok p ∧ p.author = "Unknown Author") ∧
    (∀ fc, findForest isUnminimizedComment doc = some fc →
      findForest isContentNode (childrenOf fc) = none →
      ∃ p, post_pull_from link doc = Except.ok p ∧
        p.content = "Unable to find content for this post!!!") := by
  refine ⟨?_, ?_, ?_⟩
  · intro h
    unfold post_pull_from
    rw [h]
  · intro fc hfc hna
    unfold post_pull_from
    rw [hfc]
    dsimp only
    rw [hna]
    exact ⟨_, rfl, rfl⟩
  · intro fc hfc hnc
    unfold post_pull_from
    rw [hfc]
    dsimp only
    rw [hnc]
    exact ⟨_, rfl, rfl⟩

/-- Witness for C8 (amended): a page whose comment container holds
neither author nor content markup yields the sentinel post, and an empty
page fails with the error. -/
theorem post_sentinels_witness :
    (∃ p, post_pull_from c8link w8doc = Except.ok p ∧ p.author = "Unknown Author") ∧
    (∃ p, post_pull_from c8link w8doc = Except.ok p ∧
      p.content = "Unable to find content for this post!!!") ∧
    post_pull_from c8link .nil = Except.error () :=
  ⟨(post_sentinels c8link w8doc).2.1 _ rfl rfl,
   (post_sentinels c8link w8doc).2.2 _ rfl rfl,
   (post_sentinels c8link .nil).1 rfl⟩

/-- C9 counterexample: on the claim's exact fragment, which has no
whitespace between the elements, the converter emits a *single* newline
between the heading and the paragraph, not the claimed blank line. -/
theorem convert_example_counterexample :
    html_to_md c9fragment = "# This is a test\nOf _a_ thing." ∧
    ("# This is a test\nOf _a_ thing." : String) ≠ "# This is a test\n\nOf _a_ thing." :=
  ⟨rfl, by decide⟩

/-- C9 (amended): the conversion (with true heading markers) of
`<div><h1>This is a test</h1><p>Of <i>a</i> thing.</p></div>` is
"# This is a test\nOf _a_ thing.", with one newline after the heading;
the claimed two-newline output "# This is a test\n\nOf _a_ thing." is
produced for the repository test's variant of the fragment, where
newline text nodes separate the elements. -/
theorem convert_example :
    html_to_md c9fragment = "# This is a test\nOf _a_ thing." ∧
    html_to_md c9testFragment = "# This is a test\n\nOf _a_ thing." :=
  ⟨rfl, rfl⟩
